import Mathlib

/-!
Verification of the audiogiphy core: the tempo-segmentation engine
(`src/audiogiphy/audio_analysis.py`) and the checkpointed clip-assembly
pipeline (`src/audiogiphy/visual_builder.py`).

Numeric conventions: Python floats are modelled as `ℚ` where the code only
ever manipulates finite values, and as `Option ℚ` where the code uses NaN
as a "no signal" marker (`none` = NaN / non-finite, `some v` = the finite
value `v`).  Paths are modelled structurally (a parent directory plus a
file name), and the on-disk JSON files are modelled as an abstract
`FileState` (missing / corrupt / parsed content).
-/

namespace Audiogiphy

/-- Constant `config.DEFAULT_BPM_FALLBACK = 120.0`. -/
def DEFAULT_BPM_FALLBACK : ℚ := 120

/-- Constant `config.CHECKPOINT_INTERVAL = 50`. -/
def CHECKPOINT_INTERVAL : Nat := 50

/-- Structure `audio_analysis.BpmSegment`: a region `[start, endS)` of the track with
roughly constant BPM.  (`end` is a Lean keyword, so the field is `endS`.) -/
structure BpmSegment where
  start : ℚ
  endS : ℚ
  bpm : ℚ
  deriving Repr, DecidableEq

/-! ### Gap repair (audio_analysis.analyze_bpm_segments, lines 139-154)

The per-window estimates are `Option ℚ` (`none` = NaN).  The code runs an
in-place forward-fill pass, then an in-place backward-fill pass, then — if
any finite estimate exists — replaces any remaining NaN by the median of
the finite estimates. -/

/-- One slot of the fill loop body
`if not finite(w[i]) and finite(w[i-1]): w[i] = w[i-1]`: a NaN slot takes
the (possibly already updated) predecessor when that is finite. -/
def fillSlot (prev x : Option ℚ) : Option ℚ :=
  match x, prev with
  | none, some p => some p
  | _, _ => x

/-- The forward-fill loop
`for i in range(1, len(w)): if not finite(w[i]) and finite(w[i-1]): w[i] = w[i-1]`,
with `prev` the (possibly already updated) value at index `i-1`. -/
def ffillGo : Option ℚ → List (Option ℚ) → List (Option ℚ)
  | _, [] => []
  | prev, x :: xs => fillSlot prev x :: ffillGo (fillSlot prev x) xs

/-- Forward fill: index 0 is untouched, later indices are filled from the
updated predecessor. -/
def ffill : List (Option ℚ) → List (Option ℚ)
  | [] => []
  | x :: xs => x :: ffillGo x xs

/-- Backward fill
`for i in range(len(w)-2, -1, -1): if not finite(w[i]) and finite(w[i+1]): w[i] = w[i+1]`
is forward fill run over the reversed list. -/
def bfill (l : List (Option ℚ)) : List (Option ℚ) :=
  (ffill l.reverse).reverse

/-- Model of `np.median` on a list of rationals: sort, then take the middle element
(odd length) or the mean of the two middle elements (even length). -/
def npMedian (l : List ℚ) : ℚ :=
  let s := l.mergeSort (fun a b => decide (a ≤ b))
  let n := s.length
  if n % 2 = 1 then s.getD (n / 2) 0
  else (s.getD (n / 2 - 1) 0 + s.getD (n / 2) 0) / 2

/-- The gap-repair stage of `analyze_bpm_segments` (lines 139-154): forward
fill, backward fill, then `none` when no finite estimate remains (the
caller falls back to a single default segment), otherwise the fully
populated list with any residual NaN replaced by the median of the finite
estimates. -/
def repairWindows (w : List (Option ℚ)) : Option (List ℚ) :=
  if ((bfill (ffill w)).filterMap id).isEmpty then none
  else some ((bfill (ffill w)).map
    (fun x => x.getD (npMedian ((bfill (ffill w)).filterMap id))))

/-! ### Segment building (audio_analysis.analyze_bpm_segments, lines 156-172) -/

/-- The segment-grouping loop: `curStart`/`curBpm` are the live
`current_start`/`current_bpm`, `pairs` the remaining
`(window_starts[i], window_bpm[i])` for `i ≥ 1`; a segment is cut whenever
`abs(this_bpm - current_bpm) > change_threshold`, and the final segment is
closed at `total`. -/
def buildSegmentsGo (total thr : ℚ) : List (ℚ × ℚ) → ℚ → ℚ → List BpmSegment
  | [], curStart, curBpm => [⟨curStart, total, curBpm⟩]
  | (s, b) :: rest, curStart, curBpm =>
      if |b - curBpm| > thr then
        ⟨curStart, s, curBpm⟩ :: buildSegmentsGo total thr rest s b
      else
        buildSegmentsGo total thr rest curStart curBpm

/-- Segment building from the gap-filled window starts and BPMs
(`analyze_bpm_segments` lines 156-172). -/
def buildSegments (starts bpms : List ℚ) (total thr : ℚ) : List BpmSegment :=
  match starts, bpms with
  | s0 :: srest, b0 :: brest => buildSegmentsGo total thr (srest.zip brest) s0 b0
  | _, _ => []

/-- The tail of `analyze_bpm_segments` after the per-window estimation loop
(lines 139-172): gap repair, total-failure fallback to a single segment at
`DEFAULT_BPM_FALLBACK`, then segment grouping. -/
def analyzeSegmentsPost (starts : List ℚ) (w : List (Option ℚ))
    (total thr : ℚ) : List BpmSegment :=
  match repairWindows w with
  | none => [⟨0, total, DEFAULT_BPM_FALLBACK⟩]
  | some bpms => buildSegments starts bpms total thr

/-! ### Per-second timeline (audio_analysis.bpm_timeline_from_segments) -/

/-- The scan body of `bpm_timeline_from_segments`: default to the last
segment's BPM, then take the first segment with `start <= t < end`. -/
def bpmAt (segs : List BpmSegment) (t : ℚ) : ℚ :=
  match segs.find? (fun s => decide (s.start ≤ t ∧ t < s.endS)) with
  | some s => s.bpm
  | none => (segs.getLastD ⟨0, 0, 0⟩).bpm

/-- Function `audio_analysis.bpm_timeline_from_segments` (lines 175-205). -/
def bpm_timeline_from_segments (segs : List BpmSegment) (d : Nat) : List ℚ :=
  if segs.isEmpty then List.replicate d DEFAULT_BPM_FALLBACK
  else (List.range d).map (fun t : Nat => bpmAt segs (t : ℚ))

/-! ### Global BPM (audio_analysis.analyze_global_bpm, lines 251-263) -/

/-- Model of `np.argmax`: index of the first occurrence of the maximum. -/
def argmaxFirst (l : List ℚ) : Nat :=
  l.findIdx (fun x => decide (∀ y ∈ l, y ≤ x))

/-- The segment-weighting tail of `analyze_global_bpm` (lines 252-263):
weights are `max(0.1, end - start)` normalised by their sum, and the BPM
at the first maximal weight is returned; an empty segment list yields
`DEFAULT_BPM_FALLBACK`. -/
def analyze_global_bpm (segs : List BpmSegment) : ℚ :=
  if segs.isEmpty then DEFAULT_BPM_FALLBACK
  else (segs.map (·.bpm)).getD
    (argmaxFirst ((segs.map (fun s => max (1 / 10) (s.endS - s.start))).map
      (· / (segs.map (fun s => max (1 / 10) (s.endS - s.start))).sum))) 0

/-- The membership test of the timeline scan: segment `s` covers time `t`
when `s.start <= t < s.endS`. -/
def covers (s : BpmSegment) (t : ℚ) : Prop :=
  s.start ≤ t ∧ t < s.endS

instance (s : BpmSegment) (t : ℚ) : Decidable (covers s t) := by
  unfold covers; infer_instance

/-- Default segment used with `List.getD` (never the value actually read in
the guarded code paths). -/
def defaultSeg : BpmSegment := ⟨0, 0, 0⟩

/-! ### Speed computation (visual_builder.build_visual_track, lines 918-926)

`bpm_values` entries are floats and may be NaN, so the local BPM is an
`Option ℚ`.  `np.clip` propagates NaN; on finite input it returns
`min hi (max lo x)`. -/

/-- Model of `np.clip(x, lo, hi)` with NaN propagation (`none` = NaN). -/
def npClip (x : Option ℚ) (lo hi : ℚ) : Option ℚ :=
  x.map (fun v => min hi (max lo v))

/-- The per-second speed computation of `build_visual_track` (line 926):
`speed = float(np.clip(local_bpm / base_bpm, speed_min, speed_max))`.
There is no substitution step for non-finite or non-positive `local_bpm`. -/
def speedFor (local_bpm : Option ℚ) (base_bpm smin smax : ℚ) : Option ℚ :=
  npClip (local_bpm.map (· / base_bpm)) smin smax

/-! ### Persisted state (visual_builder.load_blacklist / load_checkpoint /
save_checkpoint, lines 693-810)

Each on-disk JSON file is modelled by the outcome of opening and parsing
it: `missing`, `corrupt` (unreadable, or readable but of the wrong shape),
or `ok` with the parsed content. -/

/-- Outcome of reading one persisted JSON file. -/
inductive FileState (α : Type) where
  | missing : FileState α
  | corrupt : FileState α
  | ok : α → FileState α
  deriving Repr, DecidableEq

/-- A file path, split into its parent directory and its final name
(`Path.name` in the code). -/
structure ClipPath where
  parent : List String
  name : String
  deriving Repr, DecidableEq

/-- Function `visual_builder.load_blacklist` (lines 693-718): empty set when the file
is missing, unreadable, or not a JSON list; otherwise the set of names. -/
def load_blacklist : FileState (List String) → Finset String
  | .missing => ∅
  | .corrupt => ∅
  | .ok names => names.toFinset

/-- The clip-list part of `load_checkpoint` (lines 760-768): empty when
`clip_list.json` is missing or unreadable, otherwise each stored name is
re-rooted at the checkpoint directory (`checkpoint_dir / str(p)`). -/
def loadClipList (dir : List String) : FileState (List String) → List ClipPath
  | .missing => []
  | .corrupt => []
  | .ok names => names.map (fun n => ⟨dir, n⟩)

/-- Function `visual_builder.load_checkpoint` (lines 732-772) over the three files
`checkpoint.json` (parsed to its `last_completed_second`), `clip_list.json`
and `blacklist.json`.  If `checkpoint.json` is missing the function returns
early with `(0, [], ∅)` without reading the other two files; if it exists
but is corrupt, `start_sec` falls back to 0 and the clip list and blacklist
are still loaded. -/
def load_checkpoint (dir : List String) (cp : FileState Nat)
    (cl bl : FileState (List String)) : Nat × List ClipPath × Finset String :=
  match cp with
  | .missing => (0, [], ∅)
  | .corrupt => (0, loadClipList dir cl, load_blacklist bl)
  | .ok n => (n, loadClipList dir cl, load_blacklist bl)

/-- Function `visual_builder.save_checkpoint` (lines 775-810) on its success path:
the three file states a subsequent load will see.  `checkpoint.json` stores
`last_completed_second`, `clip_list.json` stores `[p.name for p in
clip_paths]`, and `blacklist.json` stores `list(blacklist)` — an
enumeration `blDump` of the in-memory set in unspecified order. -/
def save_checkpoint (last_completed_second : Nat) (clip_paths : List ClipPath)
    (blDump : List String) :
    FileState Nat × FileState (List String) × FileState (List String) :=
  (.ok last_completed_second, .ok (clip_paths.map (·.name)), .ok blDump)

/-! ### The assembly loop (visual_builder.build_visual_track, lines 918-1088)

The loop is modelled over an oracle of per-second events: the sequence of
random candidate draws with their load outcomes, and whether the
processing, the write, and the blank-frame fallback write succeed.  Clip
paths are identified by their second index (the file written for second
`sec` is `checkpoint_dir / f"clip_{sec:06d}.mp4"`).  The GIPHY branch is
not modelled (`giphy_segment_plan = None`, the claims' scenario). -/

/-- Random draws and failure outcomes for one second of the loop. -/
structure SecondEvents where
  /-- Successive `random.choice(video_paths)` results, paired with whether
  `VideoFileClip` opens them with a valid duration. -/
  draws : List (String × Bool)
  /-- Whether the subclip/speed/letterbox/set-duration chain succeeds. -/
  procOk : Bool
  /-- Whether `write_videofile` on the produced clip succeeds. -/
  writeOk : Bool
  /-- Whether the blank-frame fallback write succeeds. -/
  fallbackOk : Bool
  deriving Repr, DecidableEq

/-- Mutable state of the assembly loop: the produced clip indices, the
in-memory blacklist, the persisted (on-disk) blacklist, and the skip
counter. -/
structure BuildState where
  clips : List Nat
  bl : Finset String
  disk : Finset String
  skipped : Nat
  deriving DecidableEq

/-- The retry loop (lines 972-988): up to the given draws, skip candidates
already blacklisted (consuming an attempt), stop at the first successful
load, and blacklist each failing candidate in memory before the next
attempt.  Returns (loaded candidate, last candidate actually tried,
updated in-memory blacklist). -/
def selectAsset : List (String × Bool) → Finset String → Option String →
    Option String × Option String × Finset String
  | [], bl, lastTried => (none, lastTried, bl)
  | (n, ok) :: rest, bl, lastTried =>
      if n ∈ bl then selectAsset rest bl lastTried
      else if ok then (some n, some n, bl)
      else selectAsset rest (insert n bl) (some n)

/-- One second of the assembly loop body (lines 918-1075), excluding the
periodic checkpoint save.  `max_tries = 5` bounds the retry loop. -/
def processSecond (sec : Nat) (ev : SecondEvents) (st : BuildState) :
    BuildState :=
  let sel := selectAsset (ev.draws.take 5) st.bl none
  let loaded := sel.1
  let lastTried := sel.2.1
  let bl1 := sel.2.2
  -- black frame when no asset loads, or the processing chain raises
  let afterProc : Finset String × Nat :=
    match loaded with
    | none => (bl1, st.skipped + 1)
    | some n => if ev.procOk then (bl1, st.skipped)
                else (insert n bl1, st.skipped + 1)
  let bl2 := afterProc.1
  let skip2 := afterProc.2
  if ev.writeOk then
    { clips := st.clips ++ [sec], bl := bl2, disk := st.disk, skipped := skip2 }
  else if ev.fallbackOk then
    { clips := st.clips ++ [sec], bl := bl2, disk := st.disk, skipped := skip2 }
  else
    { clips := st.clips,
      bl := insert (lastTried.getD ("unknown_sec_" ++ Nat.repr sec)) bl2,
      disk := st.disk, skipped := skip2 + 1 }

/-- The periodic checkpoint save (lines 1077-1080): every
`CHECKPOINT_INTERVAL` seconds and on the final second, the in-memory
blacklist (with the checkpoint files) is flushed to disk. -/
def checkpointStep (sec duration : Nat) (st : BuildState) : BuildState :=
  if (sec + 1) % CHECKPOINT_INTERVAL = 0 ∨ sec = duration - 1 then
    { st with disk := st.bl }
  else st

/-- The assembly loop over a list of seconds. -/
def runSeconds (ev : Nat → SecondEvents) (duration : Nat) :
    List Nat → BuildState → BuildState
  | [], st => st
  | s :: rest, st =>
      runSeconds ev duration rest (checkpointStep s duration (processSecond s (ev s) st))

/-- The main loop of `build_visual_track` (lines 909-1088): starting from the
checkpointed clips `saved` and blacklist `bl0` (with persisted copy
`disk0`), process seconds `start_sec .. duration_seconds - 1` in order and
return the final state (whose `clips` is the returned path list). -/
def build_visual_track (ev : Nat → SecondEvents) (start_sec duration : Nat)
    (saved : List Nat) (bl0 disk0 : Finset String) : BuildState :=
  runSeconds ev duration (List.range' start_sec (duration - start_sec))
    { clips := saved, bl := bl0, disk := disk0, skipped := 0 }

/-! ## Theorems -/

/-- C10: with an empty segment list, `bpm_timeline_from_segments` returns
exactly `duration_seconds` values, each the fallback BPM 120, rather than
raising. -/
theorem empty_segments_timeline_fallback (d : Nat) :
    (bpm_timeline_from_segments [] d).length = d ∧
    DEFAULT_BPM_FALLBACK = 120 ∧
    ∀ x ∈ bpm_timeline_from_segments [] d, x = 120 := by
  refine ⟨?_, rfl, ?_⟩
  · simp [bpm_timeline_from_segments]
  · intro x hx
    simp only [bpm_timeline_from_segments, List.isEmpty_nil, if_true] at hx
    exact List.eq_of_mem_replicate hx

/-- C7 counterexample: when `checkpoint.json` is missing but
`blacklist.json` exists and holds `["bad.mp4"]`, `load_checkpoint` returns
an empty blacklist instead of the one loaded from the blacklist file, so
the claimed return value is wrong. -/
theorem load_checkpoint_missing_ignores_blacklist :
    load_checkpoint ["ckpt"] .missing .missing (.ok ["bad.mp4"]) =
      (0, [], ∅) ∧
    load_blacklist (.ok ["bad.mp4"]) = {"bad.mp4"} ∧
    (∅ : Finset String) ≠ {"bad.mp4"} := by
  refine ⟨rfl, ?_, by decide⟩
  rfl

/-- C7 amended: `load_checkpoint` is total and degrades instead of
raising: a missing `checkpoint.json` short-circuits to `(0, [], ∅)`
without consulting the other files; a corrupt `checkpoint.json` resets the
resume second to 0 while the clip list and blacklist are still loaded from
their own files; a readable checkpoint returns its stored second; and a
missing or corrupt clip list or blacklist file degrades to empty. -/
theorem load_checkpoint_degrades (dir : List String)
    (cl bl : FileState (List String)) :
    load_checkpoint dir .missing cl bl = (0, [], ∅) ∧
    load_checkpoint dir .corrupt cl bl =
      (0, loadClipList dir cl, load_blacklist bl) ∧
    (∀ n, load_checkpoint dir (.ok n) cl bl =
      (n, loadClipList dir cl, load_blacklist bl)) ∧
    load_blacklist .missing = ∅ ∧ load_blacklist .corrupt = ∅ ∧
    loadClipList dir .missing = [] ∧ loadClipList dir .corrupt = [] :=
  ⟨rfl, rfl, fun _ => rfl, rfl, rfl, rfl, rfl⟩

/-- C2 counterexample: at `local_bpm = 0`, `base_bpm = 120` the code
computes `speed = clip(0/120, 0.5, 2.0) = 0.5`, not the `1.0` the claimed
substitution of `base_bpm` would give: there is no substitution step. -/
theorem speed_no_substitution_counterexample :
    speedFor (some 0) 120 (1 / 2) 2 = some (1 / 2) ∧
    ((1 : ℚ) / 2) ≠ 1 := by
  constructor
  · simp only [speedFor, npClip, Option.map_some']
    norm_num
  · norm_num

/-- C2 amended: the speed factor is exactly
`np.clip(local_bpm / base_bpm, speed_min, speed_max)` with no substitution
for non-finite or non-positive `local_bpm`: for finite `local_bpm` and
`base_bpm > 0` (with `speed_min ≤ speed_max`) the speed lies in
`[speed_min, speed_max]`, while a NaN `local_bpm` propagates to a NaN
speed. -/
theorem speed_clamp (v base smin smax : ℚ) (hb : 0 < base)
    (hs : smin ≤ smax) :
    speedFor (some v) base smin smax = some (min smax (max smin (v / base))) ∧
    smin ≤ min smax (max smin (v / base)) ∧
    min smax (max smin (v / base)) ≤ smax ∧
    speedFor none base smin smax = none := by
  refine ⟨rfl, ?_, min_le_left _ _, rfl⟩
  exact le_min hs (le_max_left _ _)

/-- Witness for C2 amended at `local_bpm = 100`, `base_bpm = 120`. -/
theorem speed_clamp_witness :
    speedFor (some 100) 120 (1 / 2) 2 =
      some (min 2 (max (1 / 2) ((100 : ℚ) / 120))) ∧
    (1 : ℚ) / 2 ≤ min 2 (max (1 / 2) ((100 : ℚ) / 120)) ∧
    min 2 (max (1 / 2) ((100 : ℚ) / 120)) ≤ 2 ∧
    speedFor none 120 (1 / 2) 2 = none := by
  have h := speed_clamp 100 120 (1 / 2) 2 (by norm_num) (by norm_num)
  exact h

/-- The retry loop `selectAsset` only ever grows the in-memory blacklist. -/
theorem selectAsset_bl_mono (draws : List (String × Bool)) (bl : Finset String)
    (lt : Option String) : bl ⊆ (selectAsset draws bl lt).2.2 := by
  induction draws generalizing bl lt with
  | nil => exact fun a ha => ha
  | cons d rest ih =>
      obtain ⟨n, ok⟩ := d
      simp only [selectAsset]
      split
      · exact ih bl lt
      · split
        · exact fun a ha => ha
        · exact fun a ha => ih (insert n bl) (some n) (Finset.mem_insert_of_mem ha)

/-- Per-second processing never writes the persisted blacklist. -/
theorem processSecond_disk (sec : Nat) (ev : SecondEvents) (st : BuildState) :
    (processSecond sec ev st).disk = st.disk := by
  unfold processSecond
  rcases hsel : selectAsset (ev.draws.take 5) st.bl none with ⟨loaded, lastTried, bl1⟩
  cases loaded <;> cases hp : ev.procOk <;> cases hw : ev.writeOk <;>
    cases hf : ev.fallbackOk <;> simp [hsel, hp, hw, hf]

/-- Per-second processing only ever grows the in-memory blacklist. -/
theorem processSecond_bl_mono (sec : Nat) (ev : SecondEvents)
    (st : BuildState) : st.bl ⊆ (processSecond sec ev st).bl := by
  unfold processSecond
  have hsub := selectAsset_bl_mono (ev.draws.take 5) st.bl none
  rcases hsel : selectAsset (ev.draws.take 5) st.bl none with ⟨loaded, lastTried, bl1⟩
  rw [hsel] at hsub
  cases loaded <;> cases hp : ev.procOk <;> cases hw : ev.writeOk <;>
    cases hf : ev.fallbackOk <;>
    simp only [hsel, hp, hw, hf] <;>
    first
      | exact hsub
      | exact fun a ha => Finset.mem_insert_of_mem (hsub ha)
      | exact fun a ha =>
          Finset.mem_insert_of_mem (Finset.mem_insert_of_mem (hsub ha))

/-- C8 counterexample: after a load failure the failing candidate is in the
in-memory blacklist but the persisted blacklist is untouched — there is no
write-through inside the retry loop, refuting the claimed immediate
flush. -/
theorem blacklist_not_flushed_counterexample :
    (processSecond 0 ⟨[("bad.mp4", false)], true, true, true⟩
        ⟨[], ∅, ∅, 0⟩).bl = {"bad.mp4"} ∧
    (processSecond 0 ⟨[("bad.mp4", false)], true, true, true⟩
        ⟨[], ∅, ∅, 0⟩).disk = ∅ ∧
    ({"bad.mp4"} : Finset String) ≠ ∅ := by
  refine ⟨rfl, rfl, by decide⟩

/-- C8 amended: a failing candidate is added to the in-memory blacklist
immediately, before the next retry, and is never removed; but the
persisted blacklist is not touched by the per-second processing — it is
rewritten (to the full in-memory blacklist) only by the checkpoint save,
which fires every `CHECKPOINT_INTERVAL` seconds and on the final
second. -/
theorem blacklist_memory_only (sec : Nat) (ev : SecondEvents)
    (st : BuildState) (n : String) (rest : List (String × Bool))
    (bl : Finset String) (lt : Option String) (hn : n ∉ bl)
    (s d : Nat) (stc : BuildState)
    (htrig : (s + 1) % CHECKPOINT_INTERVAL = 0 ∨ s = d - 1) :
    (processSecond sec ev st).disk = st.disk ∧
    st.bl ⊆ (processSecond sec ev st).bl ∧
    n ∈ (selectAsset ((n, false) :: rest) bl lt).2.2 ∧
    (checkpointStep s d stc).disk = stc.bl := by
  refine ⟨processSecond_disk sec ev st, processSecond_bl_mono sec ev st, ?_, ?_⟩
  · simp only [selectAsset, if_neg hn, Bool.false_eq_true, if_false]
    exact selectAsset_bl_mono rest (insert n bl) (some n) (Finset.mem_insert_self n bl)
  · unfold checkpointStep
    rw [if_pos htrig]

/-- Witness for C8 amended: one failing draw on an empty blacklist, and a
checkpoint trigger on the final second. -/
theorem blacklist_memory_only_witness :
    (processSecond 0 ⟨[("a.mp4", true)], true, true, true⟩
        ⟨[], ∅, ∅, 0⟩).disk = ∅ ∧
    (∅ : Finset String) ⊆ (processSecond 0 ⟨[("a.mp4", true)], true, true, true⟩
        ⟨[], ∅, ∅, 0⟩).bl ∧
    "x.mp4" ∈ (selectAsset [("x.mp4", false)] ∅ none).2.2 ∧
    (checkpointStep 0 1 ⟨[], {"b.mp4"}, ∅, 0⟩).disk = {"b.mp4"} := by
  have h := blacklist_memory_only 0 ⟨[("a.mp4", true)], true, true, true⟩
    ⟨[], ∅, ∅, 0⟩ "x.mp4" [] ∅ none (by decide) 0 1 ⟨[], {"b.mp4"}, ∅, 0⟩
    (Or.inr rfl)
  exact h

/-- C9: saving a checkpoint and loading it back returns exactly the saved
resume second, clip-path list (for clips that live directly in the
checkpoint directory, as all written clips do), and blacklist. -/
theorem checkpoint_roundtrip (dir : List String) (s : Nat)
    (paths : List ClipPath) (blDump : List String) (bl : Finset String)
    (hin : ∀ p ∈ paths, p.parent = dir) (hbl : blDump.toFinset = bl) :
    load_checkpoint dir (save_checkpoint s paths blDump).1
      (save_checkpoint s paths blDump).2.1
      (save_checkpoint s paths blDump).2.2 = (s, paths, bl) := by
  simp only [save_checkpoint, load_checkpoint, loadClipList, load_blacklist,
    List.map_map]
  have hmap : paths.map ((fun n => ClipPath.mk dir n) ∘ ClipPath.name) = paths := by
    calc paths.map ((fun n => ClipPath.mk dir n) ∘ ClipPath.name)
        = paths.map id := by
          apply List.map_congr_left
          intro p hp
          cases p with
          | mk parent name =>
              have := hin ⟨parent, name⟩ hp
              simp_all [Function.comp]
      _ = paths := List.map_id paths
  rw [hmap, hbl]

/-- Witness for C9 at a concrete checkpoint directory, second, clip list
and blacklist. -/
theorem checkpoint_roundtrip_witness :
    load_checkpoint ["ck"]
      (save_checkpoint 3 [⟨["ck"], "clip_000000.mp4"⟩] ["b.mp4"]).1
      (save_checkpoint 3 [⟨["ck"], "clip_000000.mp4"⟩] ["b.mp4"]).2.1
      (save_checkpoint 3 [⟨["ck"], "clip_000000.mp4"⟩] ["b.mp4"]).2.2 =
      (3, [⟨["ck"], "clip_000000.mp4"⟩], {"b.mp4"}) := by
  exact checkpoint_roundtrip ["ck"] 3 [⟨["ck"], "clip_000000.mp4"⟩]
    ["b.mp4"] {"b.mp4"} (by simp) (by rfl)

/-- A second whose write (or blank-fallback write) succeeds appends exactly
its own clip index to the path list. -/
theorem processSecond_clips_recorded (sec : Nat) (ev : SecondEvents)
    (st : BuildState) (h : ev.writeOk = true ∨ ev.fallbackOk = true) :
    (processSecond sec ev st).clips = st.clips ++ [sec] := by
  unfold processSecond
  rcases hsel : selectAsset (ev.draws.take 5) st.bl none with ⟨loaded, lastTried, bl1⟩
  rcases h with hw | hf
  · cases loaded <;> cases hp : ev.procOk <;> simp [hsel, hp, hw]
  · cases loaded <;> cases hp : ev.procOk <;> cases hw : ev.writeOk <;>
      simp [hsel, hp, hw, hf]

/-- The periodic checkpoint save does not change the path list. -/
theorem checkpointStep_clips (sec duration : Nat) (st : BuildState) :
    (checkpointStep sec duration st).clips = st.clips := by
  unfold checkpointStep
  split <;> rfl

/-- Over any schedule of seconds in which every second's write or fallback
write succeeds, the loop appends exactly those seconds, in order. -/
theorem runSeconds_clips (ev : Nat → SecondEvents) (duration : Nat)
    (l : List Nat) (st : BuildState)
    (h : ∀ j ∈ l, (ev j).writeOk = true ∨ (ev j).fallbackOk = true) :
    (runSeconds ev duration l st).clips = st.clips ++ l := by
  induction l generalizing st with
  | nil => simp [runSeconds]
  | cons s rest ih =>
      have hs := h s (List.mem_cons_self s rest)
      have hrest : ∀ j ∈ rest, (ev j).writeOk = true ∨ (ev j).fallbackOk = true :=
        fun j hj => h j (List.mem_cons_of_mem s hj)
      simp only [runSeconds]
      rw [ih _ hrest, checkpointStep_clips,
        processSecond_clips_recorded s (ev s) st hs]
      simp

/-- C1 counterexample: a single-second run in which the clip write and the
blank-frame fallback write both fail returns an empty path list — the
second is not recorded as produced, and the returned list has fewer than
`duration_seconds` entries. -/
theorem clip_count_counterexample :
    (build_visual_track (fun _ => ⟨[("a.mp4", true)], true, false, false⟩)
        0 1 [] ∅ ∅).clips = [] ∧
    ([] : List Nat).length ≠ 1 := by
  constructor
  · rfl
  · decide

/-- C1 amended: if on every processed second the clip write or the
blank-fallback write succeeds, the run resuming at `start_sec` from a
checkpointed prefix of `start_sec` clips returns exactly `duration_seconds`
clip paths, one per second, in increasing second order; a second on which
both the write and the blank fallback fail is skipped instead of being
recorded. -/
theorem clip_count_invariant (ev : Nat → SecondEvents)
    (start_sec duration : Nat) (bl0 disk0 : Finset String)
    (hsd : start_sec ≤ duration)
    (hev : ∀ s, start_sec ≤ s → s < duration →
      (ev s).writeOk = true ∨ (ev s).fallbackOk = true) :
    (build_visual_track ev start_sec duration (List.range start_sec)
        bl0 disk0).clips = List.range duration := by
  unfold build_visual_track
  rw [runSeconds_clips]
  · rw [List.range_eq_range', List.range_eq_range']
    have := List.range'_append 0 start_sec (duration - start_sec) 1
    simp only [Nat.zero_add, Nat.mul_one, Nat.one_mul] at this
    rw [this, Nat.sub_add_cancel hsd]
  · intro j hj
    rw [List.mem_range'_1, Nat.add_sub_cancel' hsd] at hj
    exact hev j hj.1 hj.2

/-- Witness for C1 amended: three seconds, all writes succeeding, from a
fresh start. -/
theorem clip_count_invariant_witness :
    (build_visual_track (fun _ => ⟨[("a.mp4", true)], true, true, true⟩)
        0 3 (List.range 0) ∅ ∅).clips = List.range 3 :=
  clip_count_invariant (fun _ => ⟨[("a.mp4", true)], true, true, true⟩)
    0 3 ∅ ∅ (by decide) (fun _ _ _ => Or.inl rfl)

/-- The grouping loop always emits at least one segment. -/
theorem buildSegmentsGo_ne_nil (total thr : ℚ) (pairs : List (ℚ × ℚ))
    (cs cb : ℚ) : buildSegmentsGo total thr pairs cs cb ≠ [] := by
  induction pairs generalizing cs cb with
  | nil => simp [buildSegmentsGo]
  | cons p rest ih =>
      obtain ⟨s, b⟩ := p
      unfold buildSegmentsGo
      split
      · simp
      · exact ih cs cb

/-- The first emitted segment starts at the live `current_start` and
carries the live `current_bpm`. -/
theorem buildSegmentsGo_head (total thr : ℚ) (pairs : List (ℚ × ℚ))
    (cs cb : ℚ) :
    ∃ seg, (buildSegmentsGo total thr pairs cs cb).head? = some seg ∧
      seg.start = cs ∧ seg.bpm = cb := by
  induction pairs generalizing cs cb with
  | nil => exact ⟨⟨cs, total, cb⟩, rfl, rfl, rfl⟩
  | cons p rest ih =>
      obtain ⟨s, b⟩ := p
      unfold buildSegmentsGo
      split
      · exact ⟨⟨cs, s, cb⟩, rfl, rfl, rfl⟩
      · exact ih cs cb

/-- The last emitted segment ends at `total_duration`. -/
theorem buildSegmentsGo_last (total thr : ℚ) (pairs : List (ℚ × ℚ))
    (cs cb : ℚ) :
    ∃ seg, (buildSegmentsGo total thr pairs cs cb).getLast? = some seg ∧
      seg.endS = total := by
  induction pairs generalizing cs cb with
  | nil => exact ⟨⟨cs, total, cb⟩, rfl, rfl⟩
  | cons p rest ih =>
      obtain ⟨s, b⟩ := p
      unfold buildSegmentsGo
      split
      · obtain ⟨seg, hseg, hend⟩ := ih s b
        refine ⟨seg, ?_, hend⟩
        simp [List.getLast?_cons, hseg]
      · exact ih cs cb

/-- Adjacent emitted segments are contiguous (`a.endS = b.start`) and their
BPMs differ by more than the change threshold (a cut happens only at a
threshold break against the current segment's anchor BPM). -/
theorem buildSegmentsGo_chain (total thr : ℚ) (pairs : List (ℚ × ℚ))
    (cs cb : ℚ) :
    List.Chain' (fun a b => a.endS = b.start ∧ thr < |b.bpm - a.bpm|)
      (buildSegmentsGo total thr pairs cs cb) := by
  induction pairs generalizing cs cb with
  | nil => simp [buildSegmentsGo]
  | cons p rest ih =>
      obtain ⟨s, b⟩ := p
      unfold buildSegmentsGo
      split
      · rename_i hcut
        refine List.chain'_cons'.mpr ⟨?_, ih s b⟩
        intro seg hseg
        obtain ⟨seg', hseg', hstart, hbpm⟩ := buildSegmentsGo_head total thr rest s b
        rw [hseg'] at hseg
        cases hseg
        exact ⟨hstart.symm, by rw [hbpm]; exact hcut⟩
      · exact ih cs cb

/-- C3 counterexample: window BPMs 100, 102, 104 with the default change
threshold 2.5 — no two consecutive windows differ by more than 2.5, yet
the code cuts a second segment at the third window (the comparison is
against the current segment's first-window BPM, which has drifted 4
away). -/
theorem segment_cut_counterexample :
    (buildSegments [0, 4, 8] [100, 102, 104] 12 (5 / 2)).length = 2 ∧
    |(102 : ℚ) - 100| ≤ 5 / 2 ∧ |(104 : ℚ) - 102| ≤ 5 / 2 := by
  refine ⟨?_, by rw [abs_of_nonneg] <;> norm_num, by rw [abs_of_nonneg] <;> norm_num⟩
  have h1 : ¬(|(102 : ℚ) - 100| > 5 / 2) := by
    rw [show (102 : ℚ) - 100 = 2 by norm_num,
      abs_of_nonneg (by norm_num : (0 : ℚ) ≤ 2)]
    norm_num
  have h2 : |(104 : ℚ) - 100| > 5 / 2 := by
    rw [show (104 : ℚ) - 100 = 4 by norm_num,
      abs_of_nonneg (by norm_num : (0 : ℚ) ≤ 4)]
    norm_num
  simp [buildSegments, buildSegmentsGo, h1, h2]

/-- C3 amended: segments built from one run's windows (whose first window
starts at 0) are contiguous, ordered and covering: adjacent segments
satisfy `a.endS = b.start`, the first segment starts at 0, the last ends
at `total_duration` — and a new segment starts exactly when a window's BPM
differs by more than `change_threshold` from the BPM of the *first window
of the current segment* (the segment's anchor), not from the immediately
preceding window; in particular adjacent segments' BPMs always differ by
more than the threshold. -/
theorem segments_contiguous_cover (srest : List ℚ) (b0 : ℚ) (brest : List ℚ)
    (total thr : ℚ) :
    buildSegments (0 :: srest) (b0 :: brest) total thr ≠ [] ∧
    (∃ seg, (buildSegments (0 :: srest) (b0 :: brest) total thr).head? = some seg ∧
      seg.start = 0) ∧
    (∃ seg, (buildSegments (0 :: srest) (b0 :: brest) total thr).getLast? = some seg ∧
      seg.endS = total) ∧
    List.Chain' (fun a b => a.endS = b.start ∧ thr < |b.bpm - a.bpm|)
      (buildSegments (0 :: srest) (b0 :: brest) total thr) := by
  refine ⟨buildSegmentsGo_ne_nil total thr _ 0 b0, ?_, ?_, ?_⟩
  · obtain ⟨seg, hseg, hstart, _⟩ :=
      buildSegmentsGo_head total thr (srest.zip brest) 0 b0
    exact ⟨seg, hseg, hstart⟩
  · exact buildSegmentsGo_last total thr (srest.zip brest) 0 b0
  · exact buildSegmentsGo_chain total thr (srest.zip brest) 0 b0

/-- Helper: `List.find?` returns the element at the first index satisfying the
predicate. -/
theorem find?_eq_of_first {α : Type} (p : α → Bool) (l : List α) (i : Nat)
    (d : α) (hi : i < l.length)
    (hbefore : ∀ j, j < i → p (l.getD j d) = false)
    (hat : p (l.getD i d) = true) : l.find? p = some (l.getD i d) := by
  induction l generalizing i with
  | nil => exact absurd hi (by simp)
  | cons a as ih =>
      cases i with
      | zero =>
          simp only [List.getD_cons_zero] at hat ⊢
          rw [List.find?_cons_of_pos _ hat]
      | succ n =>
          have ha : p a = false := by
            have := hbefore 0 (Nat.succ_pos n)
            simpa using this
          rw [List.find?_cons_of_neg _ (by simp [ha]), List.getD_cons_succ]
          exact ih n (by simpa using hi)
            (fun j hj => by
              have := hbefore (j + 1) (Nat.succ_lt_succ hj)
              simpa using this)
            (by simpa using hat)

/-- C4: for a non-empty segment list, the timeline has exactly
`duration_seconds` entries; the entry for second `t` is the BPM of the
first segment covering `t`, and the last segment's BPM when no segment
covers `t`. -/
theorem timeline_covering (segs : List BpmSegment) (h : segs ≠ []) (d : Nat) :
    (bpm_timeline_from_segments segs d).length = d ∧
    (∀ t, t < d → ∀ i, i < segs.length →
      (∀ j, j < i → ¬ covers (segs.getD j defaultSeg) (t : ℚ)) →
      covers (segs.getD i defaultSeg) (t : ℚ) →
      (bpm_timeline_from_segments segs d).getD t 0 =
        (segs.getD i defaultSeg).bpm) ∧
    (∀ t, t < d → (∀ s ∈ segs, ¬ covers s (t : ℚ)) →
      (bpm_timeline_from_segments segs d).getD t 0 = (segs.getLast h).bpm) := by
  have hempty : segs.isEmpty = false := by
    cases segs with
    | nil => exact absurd rfl h
    | cons a l => rfl
  have hval : ∀ t, t < d →
      (bpm_timeline_from_segments segs d).getD t 0 = bpmAt segs (t : ℚ) := by
    intro t ht
    simp only [bpm_timeline_from_segments, hempty, Bool.false_eq_true, if_false]
    rw [List.getD_eq_getElem?_getD, List.getElem?_map, List.getElem?_range ht]
    rfl
  refine ⟨?_, ?_, ?_⟩
  · simp [bpm_timeline_from_segments, hempty]
  · intro t ht i hi hbefore hat
    rw [hval t ht]
    unfold bpmAt
    rw [find?_eq_of_first _ segs i defaultSeg hi
      (fun j hj => by simpa [covers] using hbefore j hj)
      (by simpa [covers] using hat)]
  · intro t ht hnone
    rw [hval t ht]
    unfold bpmAt
    rw [List.find?_eq_none.mpr (fun s hs => by simpa [covers] using hnone s hs)]
    rw [List.getLastD_eq_getLast?, List.getLast?_eq_getLast segs h]
    rfl

/-- Witness for C4 on the spec's example segments
`[(0,5,120), (5,10,140)]` with duration 12: length 12, second 5 reads the
second segment's BPM, and second 11 (past the last segment) falls back to
the last segment's BPM. -/
theorem timeline_covering_witness :
    (bpm_timeline_from_segments [⟨0, 5, 120⟩, ⟨5, 10, 140⟩] 12).length = 12 ∧
    (bpm_timeline_from_segments [⟨0, 5, 120⟩, ⟨5, 10, 140⟩] 12).getD 5 0 = 140 ∧
    (bpm_timeline_from_segments [⟨0, 5, 120⟩, ⟨5, 10, 140⟩] 12).getD 11 0 = 140 := by
  have h := timeline_covering [⟨0, 5, 120⟩, ⟨5, 10, 140⟩] (by simp) 12
  refine ⟨h.1, ?_, ?_⟩
  · have h5 := h.2.1 5 (by norm_num) 1 (by norm_num)
      (fun j hj => by
        interval_cases j
        simp only [List.getD_cons_zero, covers]
        push_neg
        intro _
        norm_num)
      (by constructor <;> norm_num)
    simpa using h5
  · have h11 := h.2.2 11 (by norm_num)
      (fun s hs => by
        simp only [List.mem_cons, List.not_mem_nil, or_false] at hs
        rcases hs with rfl | rfl <;>
          · simp only [covers]
            push_neg
            intro _
            norm_num)
    simpa using h11

/-- Forward filling preserves the number of windows. -/
theorem ffillGo_length (prev : Option ℚ) (xs : List (Option ℚ)) :
    (ffillGo prev xs).length = xs.length := by
  induction xs generalizing prev with
  | nil => rfl
  | cons x xs ih => simp [ffillGo, ih]

/-- Pass `ffill` preserves the number of windows. -/
theorem ffill_length (l : List (Option ℚ)) : (ffill l).length = l.length := by
  cases l with
  | nil => rfl
  | cons x xs => simp [ffill, ffillGo_length]

/-- Pass `bfill` preserves the number of windows. -/
theorem bfill_length (l : List (Option ℚ)) : (bfill l).length = l.length := by
  simp [bfill, ffill_length]

/-- A finite slot stays itself under `fillSlot`. -/
theorem fillSlot_some (prev : Option ℚ) (q : ℚ) :
    fillSlot prev (some q) = some q := by
  cases prev <;> rfl

/-- With a finite running predecessor, the filled slot is finite. -/
theorem fillSlot_isSome_of_prev (prev x : Option ℚ)
    (hp : prev.isSome = true) : (fillSlot prev x).isSome = true := by
  obtain ⟨p, rfl⟩ := Option.isSome_iff_exists.mp hp
  cases x <;> rfl

/-- A slot that was already finite is finite after `fillSlot`. -/
theorem fillSlot_isSome_of_x (prev x : Option ℚ)
    (hx : x.isSome = true) : (fillSlot prev x).isSome = true := by
  obtain ⟨q, rfl⟩ := Option.isSome_iff_exists.mp hx
  rw [fillSlot_some]
  rfl

/-- Once the running predecessor is finite, every later slot of the
forward fill is finite. -/
theorem ffillGo_all_some (prev : Option ℚ) (xs : List (Option ℚ))
    (hp : prev.isSome = true) : ∀ x ∈ ffillGo prev xs, x.isSome = true := by
  induction xs generalizing prev with
  | nil => simp [ffillGo]
  | cons x rest ih =>
      intro y hy
      simp only [ffillGo, List.mem_cons] at hy
      rcases hy with rfl | hy
      · exact fillSlot_isSome_of_prev prev x hp
      · exact ih (fillSlot prev x) (fillSlot_isSome_of_prev prev x hp) y hy

/-- If some window in the remainder (or the running predecessor) is
finite, the forward-filled remainder ends in a finite slot. -/
theorem ffillGo_last_some (xs : List (Option ℚ)) (prev : Option ℚ)
    (h : prev.isSome = true ∨ ∃ x ∈ xs, x.isSome = true) (hne : xs ≠ []) :
    ∃ v, (ffillGo prev xs).getLast? = some (some v) := by
  induction xs generalizing prev with
  | nil => exact absurd rfl hne
  | cons x rest ih =>
      have hx' : (fillSlot prev x).isSome = true ∨
          ∃ y ∈ rest, y.isSome = true := by
        rcases h with hp | hex
        · exact Or.inl (fillSlot_isSome_of_prev prev x hp)
        · obtain ⟨y, hy, hsome⟩ := hex
          rcases List.mem_cons.mp hy with rfl | hy
          · exact Or.inl (fillSlot_isSome_of_x prev y hsome)
          · exact Or.inr ⟨y, hy, hsome⟩
      cases rest with
      | nil =>
          have hx : (fillSlot prev x).isSome = true := by
            rcases hx' with hx | ⟨y, hy, _⟩
            · exact hx
            · exact absurd hy (List.not_mem_nil y)
          obtain ⟨v, hv⟩ := Option.isSome_iff_exists.mp hx
          exact ⟨v, by simp [ffillGo, hv]⟩
      | cons z zs =>
          obtain ⟨v, hv⟩ := ih (fillSlot prev x) hx' (by simp)
          refine ⟨v, ?_⟩
          rw [show ffillGo prev (x :: z :: zs) =
            fillSlot prev x :: ffillGo (fillSlot prev x) (z :: zs) from rfl]
          rw [List.getLast?_cons, hv]
          rfl

/-- If any window is finite, the forward-filled list ends in a finite
slot. -/
theorem ffill_last_some (l : List (Option ℚ))
    (h : ∃ x ∈ l, x.isSome = true) :
    ∃ v, (ffill l).getLast? = some (some v) := by
  cases l with
  | nil => obtain ⟨x, hx, _⟩ := h; exact absurd hx (List.not_mem_nil x)
  | cons a xs =>
      cases xs with
      | nil =>
          obtain ⟨x, hx, hsome⟩ := h
          simp only [List.mem_cons, List.not_mem_nil, or_false] at hx
          subst hx
          obtain ⟨v, hv⟩ := Option.isSome_iff_exists.mp hsome
          exact ⟨v, by simp [ffill, ffillGo, hv]⟩
      | cons z zs =>
          have hsplit : a.isSome = true ∨ ∃ x ∈ z :: zs, x.isSome = true := by
            obtain ⟨x, hx, hsome⟩ := h
            simp only [List.mem_cons] at hx
            rcases hx with rfl | hx | hx
            · left; exact hsome
            · right; exact ⟨x, by simp [hx], hsome⟩
            · right; exact ⟨x, by simp [hx], hsome⟩
          obtain ⟨v, hv⟩ := ffillGo_last_some (z :: zs) a hsplit (by simp)
          refine ⟨v, ?_⟩
          rw [show ffill (a :: z :: zs) = a :: ffillGo a (z :: zs) from rfl]
          rw [List.getLast?_cons]
          have hne : ffillGo a (z :: zs) ≠ [] := by
            have hl := ffillGo_length a (z :: zs)
            intro hnil
            rw [hnil] at hl
            simp at hl
          cases hgo : ffillGo a (z :: zs) with
          | nil => exact absurd hgo hne
          | cons b l =>
              rw [hgo] at hv
              simp [hv]

/-- If any window is finite, the forward-then-backward fill leaves every
slot finite. -/
theorem bfill_ffill_all_some (w : List (Option ℚ))
    (h : ∃ x ∈ w, x.isSome = true) :
    ∀ x ∈ bfill (ffill w), x.isSome = true := by
  obtain ⟨v, hv⟩ := ffill_last_some w h
  have hrev : (ffill w).reverse.head? = some (some v) := by
    rw [List.head?_reverse, hv]
  intro x hx
  unfold bfill at hx
  rw [List.mem_reverse] at hx
  cases hrevl : (ffill w).reverse with
  | nil => rw [hrevl] at hrev; simp at hrev
  | cons a l =>
      rw [hrevl] at hrev hx
      simp only [List.head?_cons, Option.some.injEq] at hrev
      subst hrev
      simp only [ffill, List.mem_cons] at hx
      rcases hx with rfl | hx
      · rfl
      · exact ffillGo_all_some (some v) l rfl x hx

/-- Filling over an all-NaN window list is the identity. -/
theorem ffillGo_all_none (xs : List (Option ℚ))
    (h : ∀ x ∈ xs, x = none) : ffillGo none xs = xs := by
  induction xs with
  | nil => rfl
  | cons x xs ih =>
      have hx : x = none := h x (List.mem_cons_self x xs)
      subst hx
      simp only [ffillGo]
      rw [show fillSlot none none = none from rfl,
        ih (fun y hy => h y (List.mem_cons_of_mem none hy))]

/-- Pass `ffill` over an all-NaN window list is the identity. -/
theorem ffill_all_none (l : List (Option ℚ))
    (h : ∀ x ∈ l, x = none) : ffill l = l := by
  cases l with
  | nil => rfl
  | cons a xs =>
      have ha : a = none := h a (List.mem_cons_self a xs)
      subst ha
      simp only [ffill]
      rw [ffillGo_all_none xs (fun y hy => h y (List.mem_cons_of_mem none hy))]

/-- C5: the gap-repair stage — forward fill from the running predecessor,
backward fill from the running successor, residual NaNs replaced by the
median of the finite estimates — yields a fully finite sequence of the
same length whenever at least one window produced a finite estimate; and
when no window did, the analysis returns the single fallback segment
`[0, total_duration)` at BPM 120 instead of raising. -/
theorem gap_repair_total (w : List (Option ℚ)) (starts : List ℚ)
    (total thr : ℚ) :
    ((∀ x ∈ w, x = none) →
      analyzeSegmentsPost starts w total thr =
        [⟨0, total, DEFAULT_BPM_FALLBACK⟩]) ∧
    ((∃ x ∈ w, x ≠ none) →
      ∃ l, repairWindows w = some l ∧ l.length = w.length) := by
  constructor
  · intro hall
    have hff : ffill w = w := ffill_all_none w hall
    have hbf : bfill (ffill w) = w := by
      rw [hff]
      unfold bfill
      rw [ffill_all_none w.reverse
        (fun x hx => hall x (List.mem_reverse.mp hx)), List.reverse_reverse]
    have hfm : (bfill (ffill w)).filterMap id = [] := by
      rw [hbf]
      exact List.filterMap_eq_nil_iff.mpr (fun a ha => hall a ha)
    have hrw : repairWindows w = none := by
      unfold repairWindows
      rw [hfm]
      rfl
    unfold analyzeSegmentsPost
    rw [hrw]
  · intro hex
    have hex' : ∃ x ∈ w, x.isSome = true := by
      obtain ⟨x, hx, hne⟩ := hex
      exact ⟨x, hx, Option.isSome_iff_ne_none.mpr hne⟩
    have hall := bfill_ffill_all_some w hex'
    have hne' : bfill (ffill w) ≠ [] := by
      obtain ⟨x, hx, _⟩ := hex'
      have : w ≠ [] := fun hnil => by subst hnil; exact List.not_mem_nil x hx
      intro hnil
      have hl := bfill_length (ffill w)
      rw [hnil, ffill_length] at hl
      exact this (List.length_eq_zero.mp hl.symm)
    have hfm : (bfill (ffill w)).filterMap id ≠ [] := by
      intro hnil
      rw [List.filterMap_eq_nil_iff] at hnil
      cases hbf : bfill (ffill w) with
      | nil => exact hne' hbf
      | cons a l =>
          have ha := hall a (by rw [hbf]; exact List.mem_cons_self a l)
          have hanone := hnil a (by rw [hbf]; exact List.mem_cons_self a l)
          simp only [id_eq] at hanone
          rw [hanone] at ha
          simp at ha
    refine ⟨(bfill (ffill w)).map
      (fun x => x.getD (npMedian ((bfill (ffill w)).filterMap id))), ?_, ?_⟩
    · unfold repairWindows
      rw [if_neg (by simpa [List.isEmpty_iff] using hfm)]
    · rw [List.length_map, bfill_length, ffill_length]

/-- Witness for C5: an all-NaN run collapses to the fallback segment, and
a run with one finite window repairs to a fully finite list of the same
length. -/
theorem gap_repair_total_witness :
    analyzeSegmentsPost [0, 4] [none, none] 9 (5 / 2) =
      [⟨0, 9, DEFAULT_BPM_FALLBACK⟩] ∧
    ∃ l, repairWindows [none, some 100, none] = some l ∧ l.length = 3 := by
  constructor
  · exact (gap_repair_total [none, none] [0, 4] 9 (5 / 2)).1 (by simp)
  · exact (gap_repair_total [none, some 100, none] [] 0 0).2
      ⟨some 100, by simp, by simp⟩

/-- Helper: `List.findIdx` returns the first index satisfying the predicate. -/
theorem findIdx_eq_of_first {α : Type} (p : α → Bool) (l : List α) (i : Nat)
    (d : α) (hi : i < l.length)
    (hbefore : ∀ j, j < i → p (l.getD j d) = false)
    (hat : p (l.getD i d) = true) : l.findIdx p = i := by
  induction l generalizing i with
  | nil => exact absurd hi (by simp)
  | cons a as ih =>
      cases i with
      | zero =>
          simp only [List.getD_cons_zero] at hat
          simp [List.findIdx_cons, hat]
      | succ n =>
          have ha : p a = false := by
            have := hbefore 0 (Nat.succ_pos n)
            simpa using this
          rw [List.findIdx_cons, ha]
          simp only [cond_false]
          rw [ih n (by simpa using hi)
            (fun j hj => by
              have := hbefore (j + 1) (Nat.succ_lt_succ hj)
              simpa using this)
            (by simpa using hat)]

/-- Entry `j` of the normalised weight list is the `j`-th segment's
duration divided by the total weight, once every duration is at least
0.1 (so the `max(0.1, ·)` clamp is inactive). -/
theorem weight_entry (segs : List BpmSegment)
    (hdur : ∀ s ∈ segs, 1 / 10 ≤ s.endS - s.start) (j : Nat)
    (hj : j < segs.length) :
    ((segs.map (fun s => max (1 / 10) (s.endS - s.start))).map
        (· / (segs.map (fun s => max (1 / 10) (s.endS - s.start))).sum)).getD j 0 =
      ((segs.getD j defaultSeg).endS - (segs.getD j defaultSeg).start) /
        (segs.map (fun s => max (1 / 10) (s.endS - s.start))).sum := by
  have hj1 : j < (segs.map (fun s => max (1 / 10) (s.endS - s.start))).length := by
    simpa using hj
  have hj2 : j < ((segs.map (fun s => max (1 / 10) (s.endS - s.start))).map
      (· / (segs.map (fun s => max (1 / 10) (s.endS - s.start))).sum)).length := by
    simpa using hj
  rw [List.getD_eq_getElem?_getD, List.getElem?_eq_getElem hj2,
    List.getElem_map, List.getElem_map, Option.getD_some,
    List.getD_eq_getElem?_getD, List.getElem?_eq_getElem hj]
  have hmem : segs.get ⟨j, hj⟩ ∈ segs := List.get_mem segs j hj
  rw [Option.getD_some]
  have : max (1 / 10) ((segs.get ⟨j, hj⟩).endS - (segs.get ⟨j, hj⟩).start) =
      (segs.get ⟨j, hj⟩).endS - (segs.get ⟨j, hj⟩).start :=
    max_eq_right (hdur _ hmem)
  simp only [List.get_eq_getElem] at this ⊢
  rw [this]

/-- The total clamped weight is positive for a non-empty segment list. -/
theorem weights_sum_pos (segs : List BpmSegment) (hne : segs ≠ []) :
    0 < (segs.map (fun s => max (1 / 10) (s.endS - s.start))).sum := by
  apply List.sum_pos
  · intro x hx
    obtain ⟨s, _, rfl⟩ := List.mem_map.mp hx
    calc (0 : ℚ) < 1 / 10 := by norm_num
      _ ≤ max (1 / 10) (s.endS - s.start) := le_max_left _ _
  · intro hmapnil
    exact hne (List.map_eq_nil_iff.mp hmapnil)

/-- Run invariant behind C6's duration hypothesis: when consecutive window
starts are at least `δ` apart and the track extends at least `δ` past the
last window start, every emitted segment has duration at least `δ`. -/
theorem buildSegmentsGo_durations (total thr δ : ℚ) (hδ : 0 ≤ δ)
    (pairs : List (ℚ × ℚ)) :
    ∀ (cs cb : ℚ),
      List.Chain (fun a b => a.1 + δ ≤ b.1) (cs, cb) pairs →
      (pairs.getLastD (cs, cb)).1 + δ ≤ total →
      ∀ s ∈ buildSegmentsGo total thr pairs cs cb, δ ≤ s.endS - s.start := by
  induction pairs with
  | nil =>
      intro cs cb _ hlast s hs
      simp only [buildSegmentsGo, List.mem_singleton] at hs
      subst hs
      simp only [List.getLastD] at hlast
      simp only []
      linarith
  | cons p rest ih =>
      intro cs cb hchain hlast s hs
      obtain ⟨ps, pb⟩ := p
      rw [List.chain_cons] at hchain
      obtain ⟨hstep, hchain'⟩ := hchain
      rw [List.getLastD_cons] at hlast
      simp only [buildSegmentsGo] at hs
      by_cases hcut : |pb - cb| > thr
      · rw [if_pos hcut] at hs
        rcases List.mem_cons.mp hs with rfl | hs
        · simp only []
          linarith [hstep]
        · exact ih ps pb hchain' hlast s hs
      · rw [if_neg hcut] at hs
        refine ih cs cb ?_ ?_ s hs
        · cases rest with
          | nil => exact List.Chain.nil
          | cons q qs =>
              rw [List.chain_cons] at hchain' ⊢
              obtain ⟨hq, hqs⟩ := hchain'
              exact ⟨by linarith, hqs⟩
        · cases rest with
          | nil =>
              simp only [List.getLastD] at hlast ⊢
              linarith
          | cons q qs =>
              rw [List.getLastD_cons] at hlast ⊢
              exact hlast

/-- Run invariant for `buildSegments`: with window starts spaced at least
`δ` apart and `total` at least `δ` past the last start, every segment's
duration is at least `δ`.  (In a default analysis run the hop is 4 s and
the final analysed window extends at least 0.5 s to the track end, so
`δ = 0.1` holds.) -/
theorem buildSegments_durations (s0 : ℚ) (srest : List ℚ) (b0 : ℚ)
    (brest : List ℚ) (total thr δ : ℚ) (hδ : 0 ≤ δ)
    (hchain : List.Chain (fun a b => a.1 + δ ≤ b.1) (s0, b0) (srest.zip brest))
    (hlast : ((srest.zip brest).getLastD (s0, b0)).1 + δ ≤ total) :
    ∀ s ∈ buildSegments (s0 :: srest) (b0 :: brest) total thr,
      δ ≤ s.endS - s.start :=
  buildSegmentsGo_durations total thr δ hδ (srest.zip brest) s0 b0 hchain hlast

/-- C6: for a segment list in which every duration is at least 0.1 (as in
any list produced by an analysis run: window hops are 4 s and the final
window is at least 0.5 s long, so the clamp `max(0.1, ·)` never fires) and
whose longest segment is unique, `analyze_global_bpm` returns the BPM of
that longest segment. -/
theorem analyze_global_bpm_longest (segs : List BpmSegment) (i : Nat)
    (hi : i < segs.length)
    (hdur : ∀ s ∈ segs, 1 / 10 ≤ s.endS - s.start)
    (hmax : ∀ j, j < segs.length → j ≠ i →
      (segs.getD j defaultSeg).endS - (segs.getD j defaultSeg).start <
        (segs.getD i defaultSeg).endS - (segs.getD i defaultSeg).start) :
    analyze_global_bpm segs = (segs.getD i defaultSeg).bpm := by
  have hne : segs ≠ [] := by
    intro hnil
    rw [hnil] at hi
    simp at hi
  have hempty : segs.isEmpty = false := by
    cases segs with
    | nil => exact absurd rfl hne
    | cons a l => rfl
  have hT := weights_sum_pos segs hne
  have hlen : ((segs.map (fun s => max (1 / 10) (s.endS - s.start))).map
      (· / (segs.map (fun s => max (1 / 10) (s.endS - s.start))).sum)).length =
      segs.length := by simp
  have hargmax : argmaxFirst
      ((segs.map (fun s => max (1 / 10) (s.endS - s.start))).map
        (· / (segs.map (fun s => max (1 / 10) (s.endS - s.start))).sum)) = i := by
    unfold argmaxFirst
    apply findIdx_eq_of_first _ _ i 0 (by rwa [hlen])
    · intro j hj
      rw [weight_entry segs hdur j (lt_trans hj hi)]
      simp only [decide_eq_false_iff_not, not_forall]
      refine ⟨((segs.getD i defaultSeg).endS - (segs.getD i defaultSeg).start) /
        (segs.map (fun s => max (1 / 10) (s.endS - s.start))).sum, ?_, ?_⟩
      · have := weight_entry segs hdur i hi
        rw [← this]
        have hi2 : i < ((segs.map (fun s => max (1 / 10) (s.endS - s.start))).map
            (· / (segs.map (fun s => max (1 / 10) (s.endS - s.start))).sum)).length := by
          rwa [hlen]
        rw [List.getD_eq_getElem?_getD, List.getElem?_eq_getElem hi2,
          Option.getD_some]
        exact List.getElem_mem _
      · rw [not_le]
        exact (div_lt_div_iff_of_pos_right hT).mpr
          (hmax j (lt_trans hj hi) (Nat.ne_of_lt hj))
    · rw [weight_entry segs hdur i hi]
      rw [decide_eq_true_iff]
      intro y hy
      obtain ⟨k, hk, rfl⟩ := List.mem_iff_getElem.mp hy
      have hk' : k < segs.length := by rwa [hlen] at hk
      have hyval : ((segs.map (fun s => max (1 / 10) (s.endS - s.start))).map
          (· / (segs.map (fun s => max (1 / 10) (s.endS - s.start))).sum)).getD k 0 =
          ((segs.getD k defaultSeg).endS - (segs.getD k defaultSeg).start) /
            (segs.map (fun s => max (1 / 10) (s.endS - s.start))).sum :=
        weight_entry segs hdur k hk'
      rw [List.getD_eq_getElem?_getD, List.getElem?_eq_getElem hk,
        Option.getD_some] at hyval
      rw [hyval]
      rcases eq_or_ne k i with rfl | hki
      · exact le_refl _
      · exact le_of_lt ((div_lt_div_iff_of_pos_right hT).mpr (hmax k hk' hki))
  unfold analyze_global_bpm
  rw [if_neg (by simp [hempty]), hargmax]
  have hi3 : i < (segs.map (·.bpm)).length := by simpa using hi
  rw [List.getD_eq_getElem?_getD, List.getElem?_eq_getElem hi3,
    Option.getD_some, List.getElem_map,
    List.getD_eq_getElem?_getD, List.getElem?_eq_getElem hi, Option.getD_some]

/-- Witness for C6: three segments of durations 4, 8, 2 — the global BPM
is the middle (longest) segment's 150. -/
theorem analyze_global_bpm_longest_witness :
    analyze_global_bpm [⟨0, 4, 100⟩, ⟨4, 12, 150⟩, ⟨12, 14, 110⟩] = 150 := by
  have h := analyze_global_bpm_longest [⟨0, 4, 100⟩, ⟨4, 12, 150⟩, ⟨12, 14, 110⟩]
    1 (by norm_num)
    (fun s hs => by
      simp only [List.mem_cons, List.not_mem_nil, or_false] at hs
      rcases hs with rfl | rfl | rfl <;> norm_num)
    (fun j hj hne => by
      have hj3 : j < 3 := by simpa using hj
      interval_cases j
      · norm_num [defaultSeg]
      · exact absurd rfl hne
      · norm_num [defaultSeg])
  simpa using h

end Audiogiphy
